import Mathlib

/-!
Verification of the byte-level codec types of `zigpy/types/basic.py`.

The Python classes are embedded shallowly:

* byte strings are `List Nat` (each entry intended `< 256`);
* Python `int` is `Int`; Python raising `ValueError` / `OverflowError` is
  `Option.none`;
* `FixedIntType.serialize` / `deserialize` become `intSerialize` /
  `intDeserialize`, parameterized over the class attributes `_signed` and
  `_size`;
* `int.to_bytes(size, "little", signed=s)` is `natToLE size` applied to the
  two's-complement residue, and `int.from_bytes(..., "little", signed=s)` is
  `intFromLE`.
-/

/-- Little-endian digits, base 256: models `int.to_bytes(size, "little")`
applied to a nonnegative integer already reduced modulo `256 ^ size`. -/
def natToLE : Nat → Nat → List Nat
  | 0, _ => []
  | k + 1, n => n % 256 :: natToLE k (n / 256)

/-- Value of a little-endian byte string: models
`int.from_bytes(data, "little")` (unsigned). -/
def leVal : List Nat → Nat
  | [] => 0
  | b :: bs => b + 256 * leVal bs

/-- The range check performed by `int.to_bytes(size, "little", signed)`:
the call raises `OverflowError` outside this range. -/
def intInRange (signed : Bool) (size : Nat) (v : Int) : Prop :=
  if signed then -(2 ^ (8 * size - 1)) ≤ v ∧ v < 2 ^ (8 * size - 1)
  else 0 ≤ v ∧ v < 2 ^ (8 * size)

instance (signed : Bool) (size : Nat) (v : Int) : Decidable (intInRange signed size v) := by
  unfold intInRange
  split <;> infer_instance

/-- `FixedIntType.serialize`: `self.to_bytes(self._size, "little",
signed=self._signed)`, with `OverflowError` re-raised as `ValueError`
(both are `none` here). -/
def intSerialize (signed : Bool) (size : Nat) (v : Int) : Option (List Nat) :=
  if intInRange signed size v then
    some (natToLE size ((v % ((2 : Int) ^ (8 * size))).toNat))
  else none

/-- `int.from_bytes(bs, "little", signed=signed)` for a byte string `bs` of
length `size`. -/
def intFromLE (signed : Bool) (size : Nat) (bs : List Nat) : Int :=
  if signed ∧ 2 ^ (8 * size - 1) ≤ leVal bs then
    (leVal bs : Int) - 2 ^ (8 * size)
  else (leVal bs : Int)

/-- `FixedIntType.deserialize`: fail (`ValueError`) when fewer than `_size`
bytes are available, otherwise decode `data[:size]` and return the value
together with `data[size:]`. -/
def intDeserialize (signed : Bool) (size : Nat) (data : List Nat) :
    Option (Int × List Nat) :=
  if data.length < size then none
  else some (intFromLE signed size (data.take size), data.drop size)

/-- `FixedIntType.__new__`: builds the `int` and immediately calls
`serialize()` on it, so construction fails exactly when `serialize` does. -/
def fixedIntConstruct (signed : Bool) (size : Nat) (v : Int) : Option Int :=
  match intSerialize signed size v with
  | some _ => some v
  | none => none

/-- The smallest representable value of a `(signed, size)` integer type. -/
def intMinVal (signed : Bool) (size : Nat) : Int :=
  if signed then -(2 ^ (8 * size - 1)) else 0

/-- The largest representable value of a `(signed, size)` integer type. -/
def intMaxVal (signed : Bool) (size : Nat) : Int :=
  if signed then 2 ^ (8 * size - 1) - 1 else 2 ^ (8 * size) - 1

theorem length_natToLE (k n : Nat) : (natToLE k n).length = k := by
  induction k generalizing n with
  | zero => rfl
  | succ k ih => simp [natToLE, ih]

theorem natToLE_lt (k n : Nat) : ∀ b ∈ natToLE k n, b < 256 := by
  induction k generalizing n with
  | zero => simp [natToLE]
  | succ k ih =>
    intro b hb
    simp only [natToLE, List.mem_cons] at hb
    rcases hb with h | h
    · omega
    · exact ih _ _ h

theorem leVal_natToLE (k n : Nat) : leVal (natToLE k n) = n % 256 ^ k := by
  induction k generalizing n with
  | zero => simp [natToLE, leVal, Nat.mod_one]
  | succ k ih =>
    have h256 : (256 : Nat) ^ (k + 1) = 256 * 256 ^ k := by ring
    rw [natToLE, leVal, ih, h256, Nat.mod_mul]

theorem natToLE_leVal (bs : List Nat) (hb : ∀ b ∈ bs, b < 256) :
    natToLE bs.length (leVal bs) = bs := by
  induction bs with
  | nil => rfl
  | cons b bs ih =>
    have hblt : b < 256 := hb b (List.mem_cons_self b bs)
    have hmod : (b + 256 * leVal bs) % 256 = b := by
      rw [Nat.add_mul_mod_self_left, Nat.mod_eq_of_lt hblt]
    have hdiv : (b + 256 * leVal bs) / 256 = leVal bs := by
      rw [Nat.add_mul_div_left _ _ (by norm_num : 0 < 256),
        Nat.div_eq_of_lt hblt, Nat.zero_add]
    simp only [List.length_cons, natToLE, leVal, hmod, hdiv]
    rw [ih (fun x hx => hb x (List.mem_cons_of_mem _ hx))]

theorem leVal_lt (bs : List Nat) (hb : ∀ b ∈ bs, b < 256) :
    leVal bs < 256 ^ bs.length := by
  induction bs with
  | nil => simp [leVal]
  | cons b bs ih =>
    have h1 : b < 256 := hb b (List.mem_cons_self b bs)
    have h2 : leVal bs < 256 ^ bs.length :=
      ih (fun x hx => hb x (List.mem_cons_of_mem _ hx))
    have h3 : (256 : Nat) ^ (b :: bs).length = 256 * 256 ^ bs.length := by
      simp [List.length_cons]; ring
    simp only [leVal, h3]
    omega

theorem pow256_eq (size : Nat) : (256 : Nat) ^ size = 2 ^ (8 * size) := by
  rw [Nat.pow_mul]

/-- Decoding the little-endian digits of the two's-complement residue of an
in-range `v` recovers `v`. -/
theorem intFromLE_natToLE (signed : Bool) (size : Nat) (v : Int)
    (hsz : 1 ≤ size) (hv : intInRange signed size v) :
    intFromLE signed size (natToLE size ((v % ((2 : Int) ^ (8 * size))).toNat)) = v := by
  have hMpos : (0 : Int) < 2 ^ (8 * size) := by positivity
  have hPposI : (0 : Int) < 2 ^ (8 * size - 1) := by positivity
  set m : Nat := (v % ((2 : Int) ^ (8 * size))).toNat with hm
  have hsplit : 8 * size - 1 + 1 = 8 * size := by omega
  have hMcast : (((2 : Nat) ^ (8 * size) : Nat) : Int) = (2 : Int) ^ (8 * size) := by
    push_cast; ring
  have hPcast : (((2 : Nat) ^ (8 * size - 1) : Nat) : Int) = (2 : Int) ^ (8 * size - 1) := by
    push_cast; ring
  have hM2 : (2 : Int) ^ (8 * size) = 2 * 2 ^ (8 * size - 1) := by
    conv_lhs => rw [← hsplit]
    rw [pow_succ]
    exact mul_comm _ _
  have hvmod_nonneg : 0 ≤ v % ((2 : Int) ^ (8 * size)) := Int.emod_nonneg v (by omega)
  have hvmod_lt : v % ((2 : Int) ^ (8 * size)) < 2 ^ (8 * size) := Int.emod_lt_of_pos v hMpos
  have hmI : (m : Int) = v % ((2 : Int) ^ (8 * size)) := by
    rw [hm]; exact Int.toNat_of_nonneg hvmod_nonneg
  have hleval : leVal (natToLE size m) = m := by
    rw [leVal_natToLE]
    apply Nat.mod_eq_of_lt
    have hlt : (m : Int) < (((2 : Nat) ^ (8 * size) : Nat) : Int) := by
      rw [hMcast, hmI]; exact hvmod_lt
    rw [pow256_eq]
    exact_mod_cast hlt
  have hmod_pos : 0 ≤ v → v < (2 : Int) ^ (8 * size) → v % ((2 : Int) ^ (8 * size)) = v :=
    fun h h' => Int.emod_eq_of_lt h h'
  have hmod_neg : -((2 : Int) ^ (8 * size)) ≤ v → v < 0 →
      v % ((2 : Int) ^ (8 * size)) = v + 2 ^ (8 * size) := by
    intro hlo hhi
    have heq : v % ((2 : Int) ^ (8 * size)) = (v + 2 ^ (8 * size) * 1) % (2 ^ (8 * size)) := by
      rw [Int.add_mul_emod_self_left]
    rw [heq, mul_one]
    exact Int.emod_eq_of_lt (by omega) (by omega)
  unfold intFromLE
  rw [hleval]
  split_ifs with hc
  · -- negative branch of `from_bytes`: high bit set
    obtain ⟨hsig, hcm⟩ := hc
    subst hsig
    unfold intInRange at hv
    simp only [if_true] at hv
    have hcmI : (2 : Int) ^ (8 * size - 1) ≤ (m : Int) := by
      rw [← hPcast]; exact_mod_cast hcm
    by_cases h0 : 0 ≤ v
    · have := hmod_pos h0 (by omega)
      omega
    · have := hmod_neg (by omega) (by omega)
      omega
  · -- nonnegative branch
    cases signed with
    | false =>
      unfold intInRange at hv
      simp only [Bool.false_eq_true, if_false] at hv
      have := hmod_pos hv.1 hv.2
      omega
    | true =>
      unfold intInRange at hv
      simp only [if_true] at hv
      have hcm : ¬ (2 : Nat) ^ (8 * size - 1) ≤ m := fun h => hc ⟨rfl, h⟩
      have hcmI : (m : Int) < (2 : Int) ^ (8 * size - 1) := by
        rw [← hPcast]
        exact_mod_cast Nat.lt_of_not_le hcm
      by_cases h0 : 0 ≤ v
      · have := hmod_pos h0 (by omega)
        omega
      · have := hmod_neg (by omega) (by omega)
        omega

/-- C1: for every width `1..8` and signedness and every in-range value `v`,
`serialize(v)` is exactly `size` little-endian bytes and
`deserialize(serialize(v) ++ rest)` returns `(v, rest)`; concretely, the
unsigned 16-bit value `0x1234` encodes to `[0x34, 0x12]` and decoding
`[0x34, 0x12, 0xFF]` yields `(0x1234, [0xFF])`. -/
theorem c1_fixed_int_roundtrip (signed : Bool) (size : Nat) (v : Int) (rest : List Nat)
    (hsz : 1 ≤ size) (hsz8 : size ≤ 8) (hv : intInRange signed size v) :
    (∃ bs, intSerialize signed size v = some bs ∧ bs.length = size ∧
      intDeserialize signed size (bs ++ rest) = some (v, rest)) ∧
    intSerialize false 2 0x1234 = some [0x34, 0x12] ∧
    intDeserialize false 2 [0x34, 0x12, 0xFF] = some (0x1234, [0xFF]) := by
  refine ⟨?_, by decide, by decide⟩
  set bs : List Nat := natToLE size ((v % ((2 : Int) ^ (8 * size))).toNat) with hbs
  have hlen : bs.length = size := length_natToLE _ _
  refine ⟨bs, ?_, hlen, ?_⟩
  · rw [intSerialize, if_pos hv]
  · rw [intDeserialize, if_neg (by simp only [List.length_append, hlen]; omega)]
    rw [List.take_left' hlen, List.drop_left' hlen]
    rw [hbs, intFromLE_natToLE signed size v hsz hv]

/-- C1 witness: the round-trip theorem applied to the signed 16-bit value
`-2`, with one trailing byte. -/
theorem c1_fixed_int_roundtrip_witness :
    (∃ bs, intSerialize true 2 (-2) = some bs ∧ bs.length = 2 ∧
      intDeserialize true 2 (bs ++ [7]) = some (-2, [7])) ∧
    intSerialize false 2 0x1234 = some [0x34, 0x12] ∧
    intDeserialize false 2 [0x34, 0x12, 0xFF] = some (0x1234, [0xFF]) :=
  c1_fixed_int_roundtrip true 2 (-2) [7] (by decide) (by decide) (by decide)

/-- C2: constructing a fixed-width integer of a given `(signed, size)` pair
from `n` fails exactly when `n` lies outside `[min, max]`, and returns the
value itself inside the range. -/
theorem c2_construct_range (signed : Bool) (size : Nat) (v : Int)
    (hsz : 1 ≤ size) (hsz8 : size ≤ 8) :
    (v < intMinVal signed size ∨ intMaxVal signed size < v →
      fixedIntConstruct signed size v = none) ∧
    (intMinVal signed size ≤ v → v ≤ intMaxVal signed size →
      fixedIntConstruct signed size v = some v) := by
  constructor
  · intro hout
    have hnr : ¬ intInRange signed size v := by
      unfold intInRange intMinVal intMaxVal at *
      cases signed <;> simp_all <;> omega
    rw [fixedIntConstruct, intSerialize, if_neg hnr]
  · intro hlo hhi
    have hr : intInRange signed size v := by
      unfold intInRange intMinVal intMaxVal at *
      cases signed <;> simp_all <;> omega
    rw [fixedIntConstruct, intSerialize, if_pos hr]

/-- C2 witness: the range theorem at the unsigned 8-bit type, value 256
(rejected via the first conjunct's hypothesis being satisfiable) and value
255 (accepted). -/
theorem c2_construct_range_witness :
    fixedIntConstruct false 1 256 = none ∧ fixedIntConstruct false 1 255 = some 255 :=
  ⟨(c2_construct_range false 1 256 (by decide) (by decide)).1 (by right; decide),
   (c2_construct_range false 1 255 (by decide) (by decide)).2 (by decide) (by decide)⟩

/-!
Floating-point bit-format conversion: `BaseFloat._convert_format`.

A format is `{sign : 1, exponent : E, fraction : F}` packed little-endian
into an integer `n`. The Python function works on plain `int`s; the biased
destination exponent is computed in `Int` (it is always nonnegative) and
`Int.toNat` is applied where it is packed back into the bit pattern.
-/

structure FloatFormat where
  exponent_bits : Nat
  fraction_bits : Nat
deriving DecidableEq

/-- `Half(BaseFloat, exponent_bits=5, fraction_bits=10)`. -/
def Half : FloatFormat := ⟨5, 10⟩

/-- `Single(BaseFloat, exponent_bits=8, fraction_bits=23)`. -/
def Single : FloatFormat := ⟨8, 23⟩

/-- `Double(BaseFloat, exponent_bits=11, fraction_bits=52)`. -/
def Double : FloatFormat := ⟨11, 52⟩

/-- `BaseFloat._convert_format(src=src, dst=dst, n=n)`. -/
def convert_format (src dst : FloatFormat) (n : Nat) : Nat :=
  let src_sign := n >>> (src.exponent_bits + src.fraction_bits)
  let src_frac := n &&& ((1 <<< src.fraction_bits) - 1)
  let src_biased_exp := (n >>> src.fraction_bits) &&& ((1 <<< src.exponent_bits) - 1)
  let src_exp : Int := (src_biased_exp : Int) - 2 ^ (src.exponent_bits - 1)
  let dst_biased_exp : Int :=
    if src_biased_exp = (1 <<< src.exponent_bits) - 1 then
      2 ^ dst.exponent_bits - 1
    else if src_biased_exp = 0 then 0
    else
      let dst_min_exp : Int := 2 - 2 ^ (dst.exponent_bits - 1)
      let dst_max_exp : Int := 2 ^ (dst.exponent_bits - 1) - 2
      min (max dst_min_exp src_exp) dst_max_exp + 2 ^ (dst.exponent_bits - 1)
  let dst_frac :=
    if src.fraction_bits > dst.fraction_bits then
      src_frac >>> (src.fraction_bits - dst.fraction_bits)
    else
      src_frac <<< (dst.fraction_bits - src.fraction_bits)
  src_sign <<< (dst.exponent_bits + dst.fraction_bits) |||
    dst_biased_exp.toNat <<< dst.fraction_bits ||| dst_frac

/-- The exponent field of a packed pattern. -/
def expField (fmt : FloatFormat) (n : Nat) : Nat :=
  (n >>> fmt.fraction_bits) &&& ((1 <<< fmt.exponent_bits) - 1)

/-- The fraction field of a packed pattern. -/
def fracField (fmt : FloatFormat) (n : Nat) : Nat :=
  n &&& ((1 <<< fmt.fraction_bits) - 1)

/-- Extracting the exponent and fraction fields from
`sign <<< (E+F) ||| exp <<< F ||| frac` recovers `exp` and `frac` when they
are in range. -/
theorem assemble_extract (s b f Ed Fd : Nat) (hb : b < 2 ^ Ed) (hf : f < 2 ^ Fd) :
    ((s <<< (Ed + Fd) ||| b <<< Fd ||| f) / 2 ^ Fd) % 2 ^ Ed = b ∧
    (s <<< (Ed + Fd) ||| b <<< Fd ||| f) % 2 ^ Fd = f := by
  have hFpos : 0 < 2 ^ Fd := Nat.two_pow_pos Fd
  have h1 : (b <<< Fd : Nat) ||| f = 2 ^ Fd * b + f := by
    rw [Nat.shiftLeft_eq, Nat.mul_comm]
    exact (Nat.mul_add_lt_is_or hf b).symm
  have hbf : 2 ^ Fd * b + f < 2 ^ (Ed + Fd) := by
    calc 2 ^ Fd * b + f < 2 ^ Fd * b + 2 ^ Fd := by omega
      _ = 2 ^ Fd * (b + 1) := by ring
      _ ≤ 2 ^ Fd * 2 ^ Ed := Nat.mul_le_mul_left _ hb
      _ = 2 ^ (Ed + Fd) := by rw [← pow_add]; ring_nf
  have h2 : (s <<< (Ed + Fd) : Nat) ||| (2 ^ Fd * b + f) =
      2 ^ (Ed + Fd) * s + (2 ^ Fd * b + f) := by
    rw [Nat.shiftLeft_eq, Nat.mul_comm]
    exact (Nat.mul_add_lt_is_or hbf s).symm
  have hr : (s <<< (Ed + Fd) : Nat) ||| b <<< Fd ||| f =
      2 ^ Fd * (2 ^ Ed * s + b) + f := by
    rw [Nat.or_assoc, h1, h2, pow_add]
    ring
  rw [hr]
  constructor
  · rw [Nat.mul_add_div hFpos, Nat.div_eq_of_lt hf, Nat.add_zero,
      Nat.mul_add_mod, Nat.mod_eq_of_lt hb]
  · rw [Nat.mul_add_mod, Nat.mod_eq_of_lt hf]

theorem exp_extract (s0 dE dF : Nat) (B : Int) (DF : Nat)
    (hB : B.toNat < 2 ^ dE) (hDF : DF < 2 ^ dF) :
    ((s0 <<< (dE + dF) ||| B.toNat <<< dF ||| DF) / 2 ^ dF) % 2 ^ dE = B.toNat :=
  (assemble_extract s0 B.toNat DF dE dF hB hDF).1

theorem frac_extract (s0 dE dF : Nat) (B : Int) (DF : Nat)
    (hB : B.toNat < 2 ^ dE) (hDF : DF < 2 ^ dF) :
    (s0 <<< (dE + dF) ||| B.toNat <<< dF ||| DF) % 2 ^ dF = DF :=
  (assemble_extract s0 B.toNat DF dE dF hB hDF).2

/-- Field-level description of `_convert_format`, for any destination format
with at least two exponent bits (all three concrete formats qualify). -/
theorem convert_format_spec (src dst : FloatFormat) (n : Nat)
    (hdE : 2 ≤ dst.exponent_bits) :
    expField dst (convert_format src dst n) =
      (if expField src n = 2 ^ src.exponent_bits - 1 then 2 ^ dst.exponent_bits - 1
       else if expField src n = 0 then 0
       else
         (min (max (2 - 2 ^ (dst.exponent_bits - 1))
                ((expField src n : Int) - 2 ^ (src.exponent_bits - 1)))
            (2 ^ (dst.exponent_bits - 1) - 2) +
          2 ^ (dst.exponent_bits - 1)).toNat) ∧
    fracField dst (convert_format src dst n) =
      (if src.fraction_bits > dst.fraction_bits then
        fracField src n >>> (src.fraction_bits - dst.fraction_bits)
       else fracField src n <<< (dst.fraction_bits - src.fraction_bits)) := by
  have hsplitE : dst.exponent_bits - 1 + 1 = dst.exponent_bits := by omega
  have hPEnat : (2 : Nat) ^ dst.exponent_bits = 2 * 2 ^ (dst.exponent_bits - 1) := by
    conv_lhs => rw [← hsplitE]
    rw [pow_succ]
    exact Nat.mul_comm _ 2
  have hEcast : (((2 : Nat) ^ dst.exponent_bits : Nat) : Int) = (2 : Int) ^ dst.exponent_bits := by
    push_cast; ring
  have hE1cast : (((2 : Nat) ^ (dst.exponent_bits - 1) : Nat) : Int) =
      (2 : Int) ^ (dst.exponent_bits - 1) := by
    push_cast; ring
  have hP2 : (2 : Int) ≤ 2 ^ (dst.exponent_bits - 1) := by
    calc (2 : Int) = 2 ^ 1 := (pow_one 2).symm
      _ ≤ 2 ^ (dst.exponent_bits - 1) := pow_le_pow_right₀ (by norm_num) (by omega)
  have hone : 1 ≤ (2 : Nat) ^ dst.exponent_bits := Nat.one_le_two_pow
  simp only [convert_format, expField, fracField, Nat.one_shiftLeft,
    Nat.and_pow_two_sub_one_eq_mod, Nat.shiftRight_eq_div_pow]
  set e := (n / 2 ^ src.fraction_bits) % 2 ^ src.exponent_bits with he
  set f0 := n % 2 ^ src.fraction_bits with hf0def
  have hf0lt : f0 < 2 ^ src.fraction_bits := by
    rw [hf0def]; exact Nat.mod_lt _ (Nat.two_pow_pos _)
  -- bound for the whole biased-exponent expression
  have hBlt : (if e = 2 ^ src.exponent_bits - 1 then ((2 : Int) ^ dst.exponent_bits - 1)
      else if e = 0 then 0
      else min (max (2 - 2 ^ (dst.exponent_bits - 1))
          ((e : Int) - 2 ^ (src.exponent_bits - 1)))
        (2 ^ (dst.exponent_bits - 1) - 2) + 2 ^ (dst.exponent_bits - 1)).toNat <
      2 ^ dst.exponent_bits := by
    split_ifs with h1 h2
    · omega
    · simpa using Nat.two_pow_pos dst.exponent_bits
    · omega
  -- bound for the whole fraction expression
  have hDFlt : (if src.fraction_bits > dst.fraction_bits then
        f0 / 2 ^ (src.fraction_bits - dst.fraction_bits)
      else f0 <<< (dst.fraction_bits - src.fraction_bits)) < 2 ^ dst.fraction_bits := by
    split_ifs with h3
    · rw [Nat.div_lt_iff_lt_mul (Nat.two_pow_pos _)]
      have hp : (2 : Nat) ^ dst.fraction_bits * 2 ^ (src.fraction_bits - dst.fraction_bits) =
          2 ^ src.fraction_bits := by
        rw [← pow_add]
        congr 1
        omega
      omega
    · rw [Nat.shiftLeft_eq]
      have hp : (2 : Nat) ^ src.fraction_bits * 2 ^ (dst.fraction_bits - src.fraction_bits) =
          2 ^ dst.fraction_bits := by
        rw [← pow_add]
        congr 1
        omega
      calc f0 * 2 ^ (dst.fraction_bits - src.fraction_bits)
          < 2 ^ src.fraction_bits * 2 ^ (dst.fraction_bits - src.fraction_bits) :=
            mul_lt_mul_of_pos_right hf0lt (by positivity)
        _ = 2 ^ dst.fraction_bits := hp
  constructor
  · rw [exp_extract _ _ _ _ _ hBlt hDFlt]
    split_ifs with h1 h2
    · omega
    · rfl
    · rfl
  · rw [frac_extract _ _ _ _ _ hBlt hDFlt]

/-- C3: for every pair of the three float formats and every source bit
pattern, the conversion maps an all-ones source exponent field to an
all-ones destination exponent field and an all-zeros one to all-zeros; any
other exponent is unbiased, clamped into
`[2 - 2^(E_dst-1), 2^(E_dst-1) - 2]` and re-biased, while fraction bits are
right-shifted when narrowing and left-shifted when widening. -/
theorem c3_float_convert (src dst : FloatFormat) (n : Nat)
    (hs : src = Half ∨ src = Single ∨ src = Double)
    (hd : dst = Half ∨ dst = Single ∨ dst = Double) :
    expField dst (convert_format src dst n) =
      (if expField src n = 2 ^ src.exponent_bits - 1 then 2 ^ dst.exponent_bits - 1
       else if expField src n = 0 then 0
       else
         (min (max (2 - 2 ^ (dst.exponent_bits - 1))
                ((expField src n : Int) - 2 ^ (src.exponent_bits - 1)))
            (2 ^ (dst.exponent_bits - 1) - 2) +
          2 ^ (dst.exponent_bits - 1)).toNat) ∧
    fracField dst (convert_format src dst n) =
      (if src.fraction_bits > dst.fraction_bits then
        fracField src n >>> (src.fraction_bits - dst.fraction_bits)
       else fracField src n <<< (dst.fraction_bits - src.fraction_bits)) := by
  have hdE : 2 ≤ dst.exponent_bits := by
    rcases hd with h | h | h <;> subst h <;> decide
  exact convert_format_spec src dst n hdE

/-- C3 witness: converting the 16-bit NaN pattern `0x7E00` to 32 bits
propagates the all-ones exponent field (`255`). -/
theorem c3_float_convert_witness :
    (expField Single (convert_format Half Single 0x7E00) =
      (if expField Half 0x7E00 = 2 ^ Half.exponent_bits - 1 then 2 ^ Single.exponent_bits - 1
       else if expField Half 0x7E00 = 0 then 0
       else
         (min (max (2 - 2 ^ (Single.exponent_bits - 1))
                ((expField Half 0x7E00 : Int) - 2 ^ (Half.exponent_bits - 1)))
            (2 ^ (Single.exponent_bits - 1) - 2) +
          2 ^ (Single.exponent_bits - 1)).toNat) ∧
    fracField Single (convert_format Half Single 0x7E00) =
      (if Half.fraction_bits > Single.fraction_bits then
        fracField Half 0x7E00 >>> (Half.fraction_bits - Single.fraction_bits)
       else fracField Half 0x7E00 <<< (Single.fraction_bits - Half.fraction_bits))) ∧
    expField Single (convert_format Half Single 0x7E00) = 255 :=
  ⟨c3_float_convert Half Single 0x7E00 (Or.inl rfl) (Or.inr (Or.inl rfl)), by decide⟩

/-!
Enum codec: `enum_factory` builds subclasses whose `_missing_` synthesizes an
`undefined_0x<hex>` member for unknown raw values; `deserialize` (inherited
from the backing `FixedIntType`) decodes the unsigned integer and the enum
constructor looks it up among the declared members.
-/

/-- One lowercase hexadecimal digit. -/
def hexDigit (d : Nat) : Char :=
  if d < 10 then Char.ofNat (48 + d) else Char.ofNat (87 + d)

/-- `value` printed as `width` lowercase hex digits, zero padded: Python
`format(value, "0<width>x")` for values below `16 ^ width` (enum raw values
always are, being decoded from `width / 2` bytes). -/
def natToHex : Nat → Nat → List Char
  | 0, _ => []
  | w + 1, v => natToHex w (v / 16) ++ [hexDigit (v % 16)]

/-- The name `_missing_` gives a synthesized member:
`f"{undefined}_0x"` followed by the value in `2 * size` hex digits. -/
def undefinedName (undefined : String) (size v : Nat) : String :=
  undefined ++ "_0x" ++ String.mk (natToHex (2 * size) v)

/-- A member of an enum type: a name and the backing raw value. -/
structure EnumMember where
  name : String
  val : Nat
deriving DecidableEq

/-- Serializing a member serializes its backing unsigned integer. -/
def enumSerialize (size : Nat) (m : EnumMember) : Option (List Nat) :=
  intSerialize false size (m.val : Int)

/-- Enum `deserialize`: decode the backing unsigned integer; a declared
member with that value is returned when present, otherwise `_missing_`
synthesizes an `undefined_0x<hex>` member carrying the raw value. -/
def enumDeserialize (members : List EnumMember) (size : Nat) (undefined : String)
    (data : List Nat) : Option (EnumMember × List Nat) :=
  if data.length < size then none
  else
    let v := leVal (data.take size)
    match members.find? (fun m => m.val == v) with
    | some m => some (m, data.drop size)
    | none => some (⟨undefinedName undefined size v, v⟩, data.drop size)

/-- C4: decoding a raw value that matches no declared member does not fail:
it yields a synthetic member named `undefined_0x<hex>` (hex of the raw
value, `2 * size` digits) whose re-serialization is exactly the consumed
bytes. -/
theorem c4_enum_unknown (members : List EnumMember) (size : Nat) (undefined : String)
    (data : List Nat) (hlen : size ≤ data.length) (hbytes : ∀ b ∈ data, b < 256)
    (hmiss : ∀ m ∈ members, m.val ≠ leVal (data.take size)) :
    ∃ m rest, enumDeserialize members size undefined data = some (m, rest) ∧
      m.name = undefined ++ "_0x" ++ String.mk (natToHex (2 * size) (leVal (data.take size))) ∧
      m.val = leVal (data.take size) ∧ rest = data.drop size ∧
      enumSerialize size m = some (data.take size) := by
  have hfind : members.find? (fun m => m.val == leVal (data.take size)) = none := by
    rw [List.find?_eq_none]
    intro m hm
    simp only [beq_iff_eq]
    exact hmiss m hm
  have htake : (data.take size).length = size := by
    rw [List.length_take]
    omega
  have hbtake : ∀ b ∈ data.take size, b < 256 := fun b hb => hbytes b (List.mem_of_mem_take hb)
  have hvlt : leVal (data.take size) < 2 ^ (8 * size) := by
    have h := leVal_lt _ hbtake
    rw [htake, pow256_eq] at h
    exact h
  have hvltI : (leVal (data.take size) : Int) < (2 : Int) ^ (8 * size) := by
    have hc : (((2 : Nat) ^ (8 * size) : Nat) : Int) = (2 : Int) ^ (8 * size) := by
      push_cast; ring
    rw [← hc]
    exact_mod_cast hvlt
  refine ⟨⟨undefinedName undefined size (leVal (data.take size)), leVal (data.take size)⟩,
    data.drop size, ?_, rfl, rfl, rfl, ?_⟩
  · unfold enumDeserialize
    rw [if_neg (by omega)]
    simp only [hfind]
  · unfold enumSerialize intSerialize
    rw [if_pos ?_]
    · have hmod : ((leVal (data.take size) : Int) % ((2 : Int) ^ (8 * size))) =
          (leVal (data.take size) : Int) :=
        Int.emod_eq_of_lt (by positivity) hvltI
      rw [hmod, Int.toNat_natCast]
      have hgen : ∀ (k : Nat) (bs : List Nat), bs.length = k → (∀ b ∈ bs, b < 256) →
          natToLE k (leVal bs) = bs := by
        intro k bs hk hb
        subst hk
        exact natToLE_leVal bs hb
      rw [hgen size _ htake hbtake]
    · unfold intInRange
      simp only [Bool.false_eq_true, if_false]
      exact ⟨by positivity, hvltI⟩

/-- C4 witness: a one-member `enum8` decoding the unknown byte `0x05`. -/
theorem c4_enum_unknown_witness :
    ∃ m rest, enumDeserialize [⟨"A", 0⟩] 1 "undefined" [5, 99] = some (m, rest) ∧
      m.name = "undefined" ++ "_0x" ++ String.mk (natToHex (2 * 1) (leVal ([5, 99].take 1))) ∧
      m.val = leVal ([5, 99].take 1) ∧ rest = [5, 99].drop 1 ∧
      enumSerialize 1 m = some ([5, 99].take 1) :=
  c4_enum_unknown [⟨"A", 0⟩] 1 "undefined" [5, 99] (by decide) (by decide) (by decide)

/-!
Length-prefixed byte strings (`LVBytes`, class attribute `_prefix_length`
equal to 1, `LongOctetString` 2) and length-prefixed text
(`CharacterString` / `LongCharacterString`). Text values are lists of
Unicode code points; `str.encode("utf8")` and
`bytes.decode("utf8", errors="replace")` are modelled by `utf8Encode` and
`utf8DecodeReplace` (the CPython decoder replaces each maximal invalid
subpart by one U+FFFD). The parameter `pl` is the `_prefix_length`
attribute.
-/

/-- `LVBytes.serialize`: reject a payload of `256 ^ _prefix_length - 1`
bytes or more, otherwise prepend the little-endian length. -/
def lvSerialize (pl : Nat) (s : List Nat) : Option (List Nat) :=
  if s.length ≥ 256 ^ pl - 1 then none
  else some (natToLE pl s.length ++ s)

/-- `LVBytes.deserialize`: read the length prefix, then that many payload
bytes, returning the remainder. -/
def lvDeserialize (pl : Nat) (data : List Nat) : Option (List Nat × List Nat) :=
  if data.length < pl then none
  else
    let num_bytes := leVal (data.take pl)
    if data.length < pl + num_bytes then none
    else some ((data.drop pl).take num_bytes, data.drop (pl + num_bytes))

/-- UTF-8 encoding of one code point (Python `chr(c).encode("utf8")`). -/
def utf8EncodeChar (c : Nat) : List Nat :=
  if c < 0x80 then [c]
  else if c < 0x800 then [0xC0 ||| (c >>> 6), 0x80 ||| (c &&& 0x3F)]
  else if c < 0x10000 then
    [0xE0 ||| (c >>> 12), 0x80 ||| ((c >>> 6) &&& 0x3F), 0x80 ||| (c &&& 0x3F)]
  else
    [0xF0 ||| (c >>> 18), 0x80 ||| ((c >>> 12) &&& 0x3F),
      0x80 ||| ((c >>> 6) &&& 0x3F), 0x80 ||| (c &&& 0x3F)]

/-- `str.encode("utf8")`: the concatenation of the code points' encodings. -/
def utf8Encode : List Nat → List Nat
  | [] => []
  | c :: s => utf8EncodeChar c ++ utf8Encode s

/-- A UTF-8 continuation byte. -/
def contByte (b : Nat) : Bool := 0x80 ≤ b && b ≤ 0xBF

/-- `bytes.decode("utf8", errors="replace")`: each maximal invalid subpart
becomes one U+FFFD. The fuel argument only drives termination; it is
instantiated with the buffer length, which consumption of at least one byte
per step never exhausts. -/
def utf8DecodeAux : Nat → List Nat → List Nat
  | 0, _ => []
  | _ + 1, [] => []
  | fuel + 1, b :: rest =>
    if b ≤ 0x7F then b :: utf8DecodeAux fuel rest
    else if b < 0xC2 then 0xFFFD :: utf8DecodeAux fuel rest
    else if b ≤ 0xDF then
      match rest with
      | [] => [0xFFFD]
      | b1 :: rest1 =>
        if contByte b1 then
          ((b - 0xC0) * 0x40 + (b1 - 0x80)) :: utf8DecodeAux fuel rest1
        else 0xFFFD :: utf8DecodeAux fuel rest
    else if b ≤ 0xEF then
      let lo1 := if b = 0xE0 then 0xA0 else 0x80
      let hi1 := if b = 0xED then 0x9F else 0xBF
      match rest with
      | [] => [0xFFFD]
      | b1 :: rest1 =>
        if lo1 ≤ b1 && b1 ≤ hi1 then
          match rest1 with
          | [] => [0xFFFD]
          | b2 :: rest2 =>
            if contByte b2 then
              ((b - 0xE0) * 0x1000 + (b1 - 0x80) * 0x40 + (b2 - 0x80)) ::
                utf8DecodeAux fuel rest2
            else 0xFFFD :: utf8DecodeAux fuel rest1
        else 0xFFFD :: utf8DecodeAux fuel rest
    else if b ≤ 0xF4 then
      let lo1 := if b = 0xF0 then 0x90 else 0x80
      let hi1 := if b = 0xF4 then 0x8F else 0xBF
      match rest with
      | [] => [0xFFFD]
      | b1 :: rest1 =>
        if lo1 ≤ b1 && b1 ≤ hi1 then
          match rest1 with
          | [] => [0xFFFD]
          | b2 :: rest2 =>
            if contByte b2 then
              match rest2 with
              | [] => [0xFFFD]
              | b3 :: rest3 =>
                if contByte b3 then
                  ((b - 0xF0) * 0x40000 + (b1 - 0x80) * 0x1000 +
                    (b2 - 0x80) * 0x40 + (b3 - 0x80)) :: utf8DecodeAux fuel rest3
                else 0xFFFD :: utf8DecodeAux fuel rest2
            else 0xFFFD :: utf8DecodeAux fuel rest1
        else 0xFFFD :: utf8DecodeAux fuel rest
    else 0xFFFD :: utf8DecodeAux fuel rest

/-- `bytes.decode("utf8", errors="replace")`. -/
def utf8DecodeReplace (bs : List Nat) : List Nat := utf8DecodeAux bs.length bs

/-- `CharacterString.serialize`: the length prefix is `len(self)` — the
number of characters — followed by `self.encode("utf8")`. -/
def charStringSerialize (pl : Nat) (s : List Nat) : Option (List Nat) :=
  if s.length ≥ 256 ^ pl - 1 then none
  else some (natToLE pl s.length ++ utf8Encode s)

/-- `CharacterString.deserialize`: read the length prefix, take that many
raw bytes, truncate at the first zero byte (`raw.split(b"\x00")[0]`) and
decode as UTF-8 with replacement. -/
def charStringDeserialize (pl : Nat) (data : List Nat) :
    Option (List Nat × List Nat) :=
  if data.length < pl then none
  else
    let length := leVal (data.take pl)
    if data.length < pl + length then none
    else
      let raw := (data.drop pl).take length
      some (utf8DecodeReplace (raw.takeWhile (fun b => b != 0)),
        data.drop (pl + length))

theorem utf8DecodeAux_ascii (fuel : Nat) (bs : List Nat) (hfuel : bs.length ≤ fuel)
    (hb : ∀ b ∈ bs, b < 0x80) : utf8DecodeAux fuel bs = bs := by
  induction fuel generalizing bs with
  | zero =>
    cases bs with
    | nil => rfl
    | cons b bs => simp at hfuel
  | succ fuel ih =>
    cases bs with
    | nil => rfl
    | cons b bs =>
      have hblt : b < 0x80 := hb b (List.mem_cons_self _ _)
      simp only [utf8DecodeAux, if_pos (by omega : b ≤ 0x7F)]
      rw [ih bs (by simp only [List.length_cons] at hfuel; omega)
        (fun x hx => hb x (List.mem_cons_of_mem _ hx))]

theorem utf8DecodeReplace_ascii (bs : List Nat) (hb : ∀ b ∈ bs, b < 0x80) :
    utf8DecodeReplace bs = bs :=
  utf8DecodeAux_ascii _ _ le_rfl hb

theorem utf8Encode_ascii (s : List Nat) (h : ∀ c ∈ s, c < 0x80) :
    utf8Encode s = s := by
  induction s with
  | nil => rfl
  | cons c s ih =>
    have hc : c < 0x80 := h c (List.mem_cons_self _ _)
    simp only [utf8Encode, utf8EncodeChar, if_pos hc]
    rw [ih (fun x hx => h x (List.mem_cons_of_mem _ hx))]
    rfl

theorem takeWhile_ne_zero (s : List Nat) (h : ∀ c ∈ s, c ≠ 0) :
    s.takeWhile (fun b => b != 0) = s := by
  induction s with
  | nil => rfl
  | cons c s ih =>
    have hc : c ≠ 0 := h c (List.mem_cons_self _ _)
    rw [List.takeWhile_cons_of_pos (by simpa using hc)]
    rw [ih (fun x hx => h x (List.mem_cons_of_mem _ hx))]

theorem length_utf8EncodeChar (c : Nat) :
    1 ≤ (utf8EncodeChar c).length ∧ ((utf8EncodeChar c).length = 1 ↔ c < 0x80) := by
  unfold utf8EncodeChar
  split_ifs with h1 h2 h3 <;> simp_all

theorem length_utf8Encode (s : List Nat) :
    s.length ≤ (utf8Encode s).length ∧
    ((utf8Encode s).length = s.length ↔ ∀ c ∈ s, c < 0x80) := by
  induction s with
  | nil => simp [utf8Encode]
  | cons c s ih =>
    have hc := length_utf8EncodeChar c
    simp only [utf8Encode, List.length_append, List.length_cons]
    refine ⟨by omega, ?_, ?_⟩
    · intro h x hx
      have h1 : (utf8EncodeChar c).length = 1 := by omega
      have h2 : (utf8Encode s).length = s.length := by omega
      rcases List.mem_cons.mp hx with h | h
      · subst h; exact hc.2.mp h1
      · exact (ih.2.mp h2) x h
    · intro hall
      have h1 : (utf8EncodeChar c).length = 1 :=
        hc.2.mpr (hall c (List.mem_cons_self _ _))
      have h2 : (utf8Encode s).length = s.length :=
        ih.2.mpr (fun x hx => hall x (List.mem_cons_of_mem _ hx))
      omega

/-- C6: encoding fails (`LengthExceededError`) exactly when the value's
length reaches `255` for the 1-byte-prefix variants and `65535` for the
2-byte-prefix variants; any shorter value is accepted. -/
theorem c6_serialize_length_limit :
    (∀ s : List Nat, lvSerialize 1 s = none ↔ 255 ≤ s.length) ∧
    (∀ s : List Nat, lvSerialize 2 s = none ↔ 65535 ≤ s.length) ∧
    (∀ s : List Nat, charStringSerialize 1 s = none ↔ 255 ≤ s.length) ∧
    (∀ s : List Nat, charStringSerialize 2 s = none ↔ 65535 ≤ s.length) := by
  refine ⟨fun s => ?_, fun s => ?_, fun s => ?_, fun s => ?_⟩ <;>
    simp only [lvSerialize, charStringSerialize, ge_iff_le] <;>
    norm_num <;> simp <;> omega

/-- C5 counterexample: the text value `"a\x00"` (code points `[97, 0]`) has
payload length `2 < 255`, yet
`serialize(deserialize(serialize(s)).value) = [1, 97] ≠ [2, 97, 0] =
serialize(s)`: the decoder truncates at the first zero byte. -/
theorem c5_counterexample :
    ([97, 0] : List Nat).length < 256 ^ 1 - 1 ∧
    charStringSerialize 1 [97, 0] = some [2, 97, 0] ∧
    charStringDeserialize 1 [2, 97, 0] = some ([97], []) ∧
    charStringSerialize 1 [97] = some [1, 97] ∧
    charStringSerialize 1 [97] ≠ charStringSerialize 1 [97, 0] := by
  refine ⟨by norm_num, by decide, ?_, by decide, by decide⟩
  decide

/-- C5 (amended): `serialize(deserialize(serialize(s)).value) ==
serialize(s)` holds for every length-prefixed bytes value under the
prefix's capacity, and for every length-prefixed text value under the
capacity all of whose code points are nonzero and single-byte in UTF-8
(below `0x80`). -/
theorem c5_amended_roundtrip :
    (∀ (pl : Nat) (s : List Nat), s.length < 256 ^ pl - 1 →
      ∃ out v rest, lvSerialize pl s = some out ∧
        lvDeserialize pl out = some (v, rest) ∧
        lvSerialize pl v = lvSerialize pl s) ∧
    (∀ (pl : Nat) (s : List Nat), s.length < 256 ^ pl - 1 →
      (∀ c ∈ s, 0 < c ∧ c < 0x80) →
      ∃ out v rest, charStringSerialize pl s = some out ∧
        charStringDeserialize pl out = some (v, rest) ∧
        charStringSerialize pl v = charStringSerialize pl s) := by
  constructor
  · intro pl s hcap
    have hpow : 0 < 256 ^ pl := Nat.pow_pos (by norm_num)
    have hlt : s.length < 256 ^ pl := by omega
    have hlen : (natToLE pl s.length).length = pl := length_natToLE _ _
    have h1 : (natToLE pl s.length ++ s).take pl = natToLE pl s.length :=
      List.take_left' hlen
    have h2 : (natToLE pl s.length ++ s).drop pl = s := List.drop_left' hlen
    have hlen2 : (natToLE pl s.length ++ s).length = pl + s.length := by
      rw [List.length_append, hlen]
    have hval : leVal ((natToLE pl s.length ++ s).take pl) = s.length := by
      rw [h1, leVal_natToLE, Nat.mod_eq_of_lt hlt]
    have h3 : (natToLE pl s.length ++ s).drop (pl + s.length) = [] :=
      List.drop_eq_nil_of_le (by omega)
    refine ⟨natToLE pl s.length ++ s, s, [], ?_, ?_, rfl⟩
    · rw [lvSerialize, if_neg (by omega)]
    · simp only [lvDeserialize, hval, hlen2, h2, h3, List.take_length]
      rw [if_neg (by omega), if_neg (by omega)]
  · intro pl s hcap hchars
    have hascii : ∀ c ∈ s, c < 0x80 := fun c hc => (hchars c hc).2
    have hnz : ∀ c ∈ s, c ≠ 0 := fun c hc => by have := (hchars c hc).1; omega
    have henc : utf8Encode s = s := utf8Encode_ascii s hascii
    have hpow : 0 < 256 ^ pl := Nat.pow_pos (by norm_num)
    have hlt : s.length < 256 ^ pl := by omega
    have hlen : (natToLE pl s.length).length = pl := length_natToLE _ _
    have h1 : (natToLE pl s.length ++ s).take pl = natToLE pl s.length :=
      List.take_left' hlen
    have h2 : (natToLE pl s.length ++ s).drop pl = s := List.drop_left' hlen
    have hlen2 : (natToLE pl s.length ++ s).length = pl + s.length := by
      rw [List.length_append, hlen]
    have hval : leVal ((natToLE pl s.length ++ s).take pl) = s.length := by
      rw [h1, leVal_natToLE, Nat.mod_eq_of_lt hlt]
    have h3 : (natToLE pl s.length ++ s).drop (pl + s.length) = [] :=
      List.drop_eq_nil_of_le (by omega)
    refine ⟨natToLE pl s.length ++ s, s, [], ?_, ?_, rfl⟩
    · rw [charStringSerialize, if_neg (by omega), henc]
    · simp only [charStringDeserialize, hval, hlen2, h2, h3, List.take_length]
      rw [if_neg (by omega), if_neg (by omega)]
      rw [takeWhile_ne_zero s hnz, utf8DecodeReplace_ascii s hascii]

/-- C5 witness: the amended round-trip at the bytes value `[5, 6]` and the
text value `"hi"` (`[104, 105]`), both with a 1-byte prefix. -/
theorem c5_amended_roundtrip_witness :
    (∃ out v rest, lvSerialize 1 [5, 6] = some out ∧
      lvDeserialize 1 out = some (v, rest) ∧
      lvSerialize 1 v = lvSerialize 1 [5, 6]) ∧
    (∃ out v rest, charStringSerialize 1 [104, 105] = some out ∧
      charStringDeserialize 1 out = some (v, rest) ∧
      charStringSerialize 1 v = charStringSerialize 1 [104, 105]) :=
  ⟨c5_amended_roundtrip.1 1 [5, 6] (by norm_num),
   c5_amended_roundtrip.2 1 [104, 105] (by norm_num) (by decide)⟩

/-- C10: the text length prefix is the number of characters, the payload is
the UTF-8 encoding, and the prefix equals the payload's byte length exactly
when every character is a single UTF-8 byte (code point below `0x80`). -/
theorem c10_text_prefix_char_count (pl : Nat) (s : List Nat)
    (hcap : s.length < 256 ^ pl - 1) :
    charStringSerialize pl s = some (natToLE pl s.length ++ utf8Encode s) ∧
    (s.length = (utf8Encode s).length ↔ ∀ c ∈ s, c < 0x80) := by
  constructor
  · rw [charStringSerialize, if_neg (by omega)]
  · have h := length_utf8Encode s
    constructor
    · intro he
      exact h.2.mp he.symm
    · intro hall
      exact (h.2.mpr hall).symm

/-- C10 witness: the two-character value `[104, 233]` (`"hé"`): the prefix
is 2 but the UTF-8 payload has 3 bytes, matching the iff (233 is not a
single-byte character). -/
theorem c10_text_prefix_char_count_witness :
    (charStringSerialize 1 [104, 233] =
      some (natToLE 1 ([104, 233] : List Nat).length ++ utf8Encode [104, 233]) ∧
     (([104, 233] : List Nat).length = (utf8Encode [104, 233]).length ↔
      ∀ c ∈ ([104, 233] : List Nat), c < 0x80)) ∧
    charStringSerialize 1 [104, 233] = some [2, 104, 195, 169] :=
  ⟨c10_text_prefix_char_count 1 [104, 233] (by norm_num), by decide⟩

/-!
`FixedList`: a collection with a declared element count (`_length`).
`serialize` validates the stored count, then concatenates
`self._item_type(i).serialize()` over the elements; `itemSer` models the
conversion-plus-serialization of one element, either step of which may
raise. `deserialize` decodes exactly `_length` items, propagating any item
failure. `Optional(t)` wraps a codec so that an inner decode failure
(`ValueError`) becomes `(None, b"")`.
-/

/-- `FixedList.serialize`. -/
def fixedListSerialize {α : Type} (itemSer : α → Option (List Nat)) (length : Nat)
    (xs : List α) : Option (List Nat) :=
  if xs.length ≠ length then none
  else
    match xs.mapM itemSer with
    | none => none
    | some bss => some bss.flatten

/-- `FixedList.deserialize`: `for i in range(length): item, data =
item_type.deserialize(data); r.append(item)`. -/
def fixedListDeserialize {α : Type} (itemDe : List Nat → Option (α × List Nat)) :
    Nat → List Nat → Option (List α × List Nat)
  | 0, data => some ([], data)
  | n + 1, data =>
    match itemDe data with
    | none => none
    | some (x, data1) =>
      match fixedListDeserialize itemDe n data1 with
      | none => none
      | some (xs, data2) => some (x :: xs, data2)

/-- `Optional(t).deserialize`: try the inner decode and turn any
`ValueError` into `(None, b"")`. -/
def optionalDeserialize {α : Type} (itemDe : List Nat → Option (α × List Nat))
    (data : List Nat) : Option α × List Nat :=
  match itemDe data with
  | some (v, rest) => (some v, rest)
  | none => (none, [])

theorem uint8_deserialize_cons (b : Nat) (rest : List Nat) :
    intDeserialize false 1 (b :: rest) = some (Int.ofNat b, rest) := by
  simp [intDeserialize, intFromLE, leVal]

/-- A `FixedList` of `uint8_t` items decodes exactly `N` bytes when they are
available and fails otherwise. -/
theorem fixedList_uint8_deserialize (N : Nat) (data : List Nat) :
    fixedListDeserialize (intDeserialize false 1) N data =
      if N ≤ data.length then
        some ((data.take N).map Int.ofNat, data.drop N)
      else none := by
  induction N generalizing data with
  | zero => simp [fixedListDeserialize]
  | succ N ih =>
    cases data with
    | nil => simp [fixedListDeserialize, intDeserialize]
    | cons b data =>
      rw [fixedListDeserialize, uint8_deserialize_cons]
      dsimp only
      rw [ih]
      by_cases h : N ≤ data.length
      · rw [if_pos h, if_pos (by simpa using Nat.succ_le_succ h)]
        simp
      · rw [if_neg h, if_neg (by simp; omega)]

/-- C8: a fixed-count collection rejects serialization whenever the stored
element count differs from the declared `N` (`ValidationError`), and its
deserialization decodes exactly `N` items, failing (`TruncatedDataError`)
when fewer than `N` complete items are available; concretely a
`FixedList` of declared length 3 holding 2 elements fails to encode. -/
theorem c8_fixed_list {α : Type} (itemSer : α → Option (List Nat)) (N : Nat)
    (xs : List α) (data : List Nat) :
    (xs.length ≠ N → fixedListSerialize itemSer N xs = none) ∧
    (N ≤ data.length →
      fixedListDeserialize (intDeserialize false 1) N data =
        some ((data.take N).map Int.ofNat, data.drop N)) ∧
    (data.length < N → fixedListDeserialize (intDeserialize false 1) N data = none) ∧
    fixedListSerialize (intSerialize false 1) 3 ([5, 6] : List Int) = none := by
  refine ⟨?_, ?_, ?_, by decide⟩
  · intro h
    rw [fixedListSerialize, if_pos h]
  · intro h
    rw [fixedList_uint8_deserialize, if_pos h]
  · intro h
    rw [fixedList_uint8_deserialize, if_neg (by omega)]

/-- C8 witness: declared length 3 — two stored elements fail to encode,
four available bytes decode to exactly three items plus the remainder, and
a two-byte buffer is rejected. -/
theorem c8_fixed_list_witness :
    fixedListSerialize (intSerialize false 1) 3 ([5, 6] : List Int) = none ∧
    fixedListDeserialize (intDeserialize false 1) 3 [1, 2, 3, 4] =
      some ([1, 2, 3], [4]) ∧
    fixedListDeserialize (intDeserialize false 1) 3 [1, 2] = none := by
  have h := c8_fixed_list (intSerialize false 1) 3 ([5, 6] : List Int) [1, 2, 3, 4]
  have h2 := c8_fixed_list (intSerialize false 1) 3 ([5, 6] : List Int) [1, 2]
  refine ⟨h.2.2.2, ?_, h2.2.2.1 (by decide)⟩
  rw [h.2.1 (by decide)]
  decide

/-- C9: for any inner codec, the optional wrapper's deserialize returns
`(absent, empty)` on any inner decode failure — discarding remaining
input — and forwards the inner result unchanged on success. -/
theorem c9_optional_wrapper (α : Type) (itemDe : List Nat → Option (α × List Nat))
    (data : List Nat) :
    (itemDe data = none → optionalDeserialize itemDe data = (none, [])) ∧
    (∀ v rest, itemDe data = some (v, rest) →
      optionalDeserialize itemDe data = (some v, rest)) := by
  constructor
  · intro h
    simp [optionalDeserialize, h]
  · intro v rest h
    simp [optionalDeserialize, h]

/-- C9 witness: `Optional(uint16_t)` on the one-byte buffer `[0xAB]`
(inner decode fails, the byte is discarded) and on `[0xAB, 0x01, 0x09]`
(inner decode succeeds). -/
theorem c9_optional_wrapper_witness :
    optionalDeserialize (intDeserialize false 2) [171] = (none, []) ∧
    optionalDeserialize (intDeserialize false 2) [171, 1, 9] = (some 427, [9]) :=
  ⟨(c9_optional_wrapper Int (intDeserialize false 2) [171]).1 (by decide),
   (c9_optional_wrapper Int (intDeserialize false 2) [171, 1, 9]).2 427 [9] (by decide)⟩

/-!
`KwargTypeMeta.__getitem__`: `Foo[args]` normalizes `args` to a tuple,
binds it against the signature built from `_getitem_kwargs` (raising
`TypeError` on arity mismatch, applying declared defaults otherwise) and
memoizes one anonymous subclass per `(cls, expanded_key)` in
`_anonymous_classes`. Descriptor objects are modelled by allocation
identifiers drawn from a counter, so two descriptors are the identical
object exactly when their identifiers are equal; parameter values and
classes are numbered.
-/

/-- The memoization state: `_anonymous_classes` (keyed by class and
expanded parameter tuple) plus the allocator of object identities. -/
structure TypeCache where
  cache : List ((Nat × List Nat) × Nat)
  next : Nat
deriving DecidableEq

/-- `signature.bind(*key)` followed by `apply_defaults()`: too many
positional arguments, or a missing argument without a declared default, is
a `TypeError`; otherwise the expanded key is the arguments extended by the
remaining defaults. -/
def expandKey (defaults : List (Option Nat)) (key : List Nat) : Option (List Nat) :=
  if defaults.length < key.length then none
  else if (defaults.drop key.length).any (fun d => d.isNone) then none
  else some (key ++ (defaults.drop key.length).filterMap id)

/-- `KwargTypeMeta.__getitem__`: look the expanded key up in the cache and
return the memoized class, otherwise create a fresh anonymous subclass and
memoize it. -/
def getitem (st : TypeCache) (cls : Nat) (defaults : List (Option Nat))
    (key : List Nat) : Option (Nat × TypeCache) :=
  match expandKey defaults key with
  | none => none
  | some ek =>
    match st.cache.find? (fun e => e.1 == (cls, ek)) with
    | some e => some (e.2, st)
    | none => some (st.next, ⟨((cls, ek), st.next) :: st.cache, st.next + 1⟩)

/-- Cache well-formedness: every memoized identifier was allocated (it is
below `next`) and identifiers are pairwise distinct. Both hold of the empty
initial state and are preserved by `getitem`. -/
def WFCache (st : TypeCache) : Prop :=
  (∀ e ∈ st.cache, e.2 < st.next) ∧ (st.cache.map Prod.snd).Nodup

/-- C7: from any well-formed cache state, two parameterization requests of
the same base class resolve to the identical descriptor when their expanded
parameter tuples agree (and the second request leaves the state untouched),
and to distinct descriptors when they differ. -/
theorem c7_type_cache (st : TypeCache) (cls : Nat) (defaults : List (Option Nat))
    (k k' : List Nat) (d1 d2 : Nat) (s1 s2 : TypeCache) (hwf : WFCache st)
    (h1 : getitem st cls defaults k = some (d1, s1))
    (h2 : getitem s1 cls defaults k' = some (d2, s2)) :
    (expandKey defaults k = expandKey defaults k' → d1 = d2 ∧ s2 = s1) ∧
    (expandKey defaults k ≠ expandKey defaults k' → d1 ≠ d2) := by
  unfold getitem at h1 h2
  cases hek : expandKey defaults k with
  | none => rw [hek] at h1; simp at h1
  | some ek =>
  rw [hek] at h1
  dsimp only at h1
  cases hek' : expandKey defaults k' with
  | none => rw [hek'] at h2; simp at h2
  | some ek' =>
  rw [hek'] at h2
  dsimp only at h2
  cases hf : st.cache.find? (fun e => e.1 == (cls, ek)) with
  | some e =>
    rw [hf] at h1
    simp only [Option.some.injEq, Prod.mk.injEq] at h1
    obtain ⟨hd1, hs1⟩ := h1
    subst hs1
    have hemem : e ∈ st.cache := List.mem_of_find?_eq_some hf
    have hekey : e.1 = (cls, ek) := by
      have := List.find?_some hf
      simpa using this
    cases hf' : st.cache.find? (fun e => e.1 == (cls, ek')) with
    | some e' =>
      rw [hf'] at h2
      simp only [Option.some.injEq, Prod.mk.injEq] at h2
      obtain ⟨hd2, hs2⟩ := h2
      have he'mem : e' ∈ st.cache := List.mem_of_find?_eq_some hf'
      have he'key : e'.1 = (cls, ek') := by
        have := List.find?_some hf'
        simpa using this
      constructor
      · intro heq
        simp only [Option.some.injEq] at heq
        subst heq
        have hee : e = e' := by
          have hse := hf.symm.trans hf'
          exact (Option.some.injEq _ _).mp hse
        subst hee
        exact ⟨hd1.symm.trans hd2, hs2.symm⟩
      · intro hne heq
        have hkne : ek ≠ ek' := by
          intro h
          exact hne (by rw [h])
        have hee : e = e' := by
          refine List.inj_on_of_nodup_map hwf.2 hemem he'mem ?_
          rw [hd1, hd2]
          exact heq
        apply hkne
        have hkk : (cls, ek) = (cls, ek') := by
          rw [← hekey, hee, he'key]
        exact ((Prod.mk.injEq _ _ _ _).mp hkk).2
    | none =>
      rw [hf'] at h2
      simp only [Option.some.injEq, Prod.mk.injEq] at h2
      obtain ⟨hd2, hs2⟩ := h2
      constructor
      · intro heq
        simp only [Option.some.injEq] at heq
        subst heq
        rw [hf] at hf'
        simp at hf'
      · intro hne
        have : e.2 < st.next := hwf.1 e hemem
        omega
  | none =>
    rw [hf] at h1
    simp only [Option.some.injEq, Prod.mk.injEq] at h1
    obtain ⟨hd1, hs1⟩ := h1
    subst hs1
    constructor
    · intro heq
      simp only [Option.some.injEq] at heq
      subst heq
      rw [List.find?_cons_of_pos _ (by simp)] at h2
      simp only [Option.some.injEq, Prod.mk.injEq] at h2
      exact ⟨hd1.symm.trans h2.1, h2.2.symm⟩
    · intro hne
      have hkne : ek ≠ ek' := by
        intro h
        exact hne (by rw [h])
      rw [List.find?_cons_of_neg _ (by simp [hkne])] at h2
      cases hf' : st.cache.find? (fun e => e.1 == (cls, ek')) with
      | some e' =>
        rw [hf'] at h2
        simp only [Option.some.injEq, Prod.mk.injEq] at h2
        have : e'.2 < st.next := hwf.1 e' (List.mem_of_find?_eq_some hf')
        omega
      | none =>
        rw [hf'] at h2
        simp only [Option.some.injEq, Prod.mk.injEq] at h2
        omega

/-- C7 witness: starting from the empty cache, requesting `[1]` (default
filling the second parameter with `7`) and then `[1, 8]` yields distinct
descriptors `0 ≠ 1`, while requesting `[1]` and then the explicitly spelled
`[1, 7]` returns the identical descriptor `0` and leaves the cache
untouched. -/
theorem c7_type_cache_witness :
    ((expandKey [none, some 7] [1] = expandKey [none, some 7] [1, 8] →
      (0 : Nat) = 1 ∧
        (⟨[((0, [1, 8]), 1), ((0, [1, 7]), 0)], 2⟩ : TypeCache) =
          ⟨[((0, [1, 7]), 0)], 1⟩) ∧
     (expandKey [none, some 7] [1] ≠ expandKey [none, some 7] [1, 8] →
      (0 : Nat) ≠ 1)) ∧
    ((expandKey [none, some 7] [1] = expandKey [none, some 7] [1, 7] →
      (0 : Nat) = 0 ∧
        (⟨[((0, [1, 7]), 0)], 1⟩ : TypeCache) = ⟨[((0, [1, 7]), 0)], 1⟩) ∧
     (expandKey [none, some 7] [1] ≠ expandKey [none, some 7] [1, 7] →
      (0 : Nat) ≠ 0)) :=
  ⟨c7_type_cache ⟨[], 0⟩ 0 [none, some 7] [1] [1, 8] 0 1
      ⟨[((0, [1, 7]), 0)], 1⟩ ⟨[((0, [1, 8]), 1), ((0, [1, 7]), 0)], 2⟩
      ⟨by simp, by simp⟩ (by decide) (by decide),
   c7_type_cache ⟨[], 0⟩ 0 [none, some 7] [1] [1, 7] 0 0
      ⟨[((0, [1, 7]), 0)], 1⟩ ⟨[((0, [1, 7]), 0)], 1⟩
      ⟨by simp, by simp⟩ (by decide) (by decide)⟩
